import Mathlib

/-!
Verification development for the `inotify-info` scanner
(`src/inotify-info.cpp`, `src/lfqueue/lfqueue.c`).

The C code is shallowly embedded: paths and directory-entry names are
`List Char` (C strings), inode numbers and device ids are `Nat`
(`ino64_t` / `dev_t`), kernel syscalls (`getdents64`, `statfs`,
`stat`/`statx`) are an explicit environment record, and the
multi-threaded scan is a transition system over a shared pool state,
driven by an arbitrary schedule of worker indices (each step is one
`parse_dirqueue_entry` call of the chosen worker).
-/

namespace InotifyInfo

/-- A path or file name: a C string as a list of characters. -/
abbrev Path := List Char

/-- Type of `ino64_t` inode numbers. -/
abbrev Ino := Nat

/-- Type of `dev_t` device ids (as produced by `makedev`). -/
abbrev Dev := Nat

/-! ## lfqueue (src/lfqueue/lfqueue.c)

Sequential (single-producer / single-consumer, no interleaving)
embedding of the lock-free queue.  In a sequential execution every CAS
succeeds exactly when its expected value matches, `head` always points
at the sentinel node, `tail` at the last node, and `tail == head` iff
there is no live node.  The state is therefore the (stale) value held
by the sentinel plus the chain of live nodes reachable through `next`.
The retire/free lists manage memory only and carry no values. -/

structure lfqueue (α : Type) where
  /-- `head->value`: the stale payload still held by the sentinel node. -/
  sent : Option α
  /-- values of the nodes `head->next`, `head->next->next`, …, `tail`. -/
  chain : List α
  deriving DecidableEq, Repr

/-- Embeds `lfqueue_init`: head = tail = fresh sentinel with NULL value / next. -/
def lfqueue_empty {α : Type} : lfqueue α := { sent := none, chain := [] }

/-- Embeds `_enqueue` (lfqueue.c:184-208): link a new node after `tail`. -/
def _enqueue {α : Type} (q : lfqueue α) (v : α) : lfqueue α :=
  { q with chain := q.chain ++ [v] }

/-- Embeds `_dequeue` (lfqueue.c:117-152), sequential execution: `next = head->next`;
if `tail == head` (iff the chain is empty) and `next == NULL` the queue is
empty; otherwise `val = next->value`, head advances to `next` (which
becomes the new sentinel, still carrying `val`), and `val` is returned. -/
def _dequeue {α : Type} (q : lfqueue α) : Option α × lfqueue α :=
  match q.chain with
  | [] => (none, q)
  | v :: rest => (some v, { sent := some v, chain := rest })

/-- Dequeue `n` times, collecting the returned values until an empty result. -/
def drainN {α : Type} : Nat → lfqueue α → List α
  | 0, _ => []
  | n + 1, q =>
    match _dequeue q with
    | (none, _) => []
    | (some v, q') => v :: drainN n q'

/-! ## Queue pool (thread_info_t::queue_directory / dequeue_directory,
inotify-info.cpp:374-393)

`tdata.dirqueues` is the fixed array of per-worker queues.  Enqueue goes
only to the owner's queue; dequeue tries the owner's queue first and on
empty sweeps every queue in pool order, returning the first non-empty
result. -/

/-- The steal sweep of `thread_info_t::dequeue_directory`
(inotify-info.cpp:384-389): walk the pool in order, pop the first
queue that yields a value, leave the rest untouched. -/
def pool_sweep : List (lfqueue Path) → Option Path × List (lfqueue Path)
  | [] => (none, [])
  | q :: rest =>
    match _dequeue q with
    | (some v, q') => (some v, q' :: rest)
    | (none, q') =>
      let r := pool_sweep rest
      (r.1, q' :: r.2)

/-- Embeds `thread_info_t::dequeue_directory` (inotify-info.cpp:379-393): try the
owning queue `idx` first; if it is empty, sweep every queue in the pool.
(In the source `idx` is always a valid index; `getD` totalizes.) -/
def dequeue_directory (idx : Nat) (qs : List (lfqueue Path)) :
    Option Path × List (lfqueue Path) :=
  match _dequeue (qs.getD idx lfqueue_empty) with
  | (some v, q') => (some v, qs.set idx q')
  | (none, _) => pool_sweep qs

/-! ## InodeDeviceIndex (thread_shared_data_t::inode_set)

`std::unordered_map<ino64_t, std::unordered_set<dev_t>>` embedded as an
association list from inode to its device list (no duplicate keys are
ever created by `inode_set_insert`; the device list is kept
duplicate-free, matching set semantics). -/

abbrev InodeSet := List (Ino × List Dev)

/-- Embeds `inode_set.find(inode)`. -/
def inode_set_find : InodeSet → Ino → Option (List Dev)
  | [], _ => none
  | (i, devs) :: rest, ino => if i = ino then some devs else inode_set_find rest ino

/-- Embeds `inode_set[inode].insert(dev)`. -/
def inode_set_insert : InodeSet → Ino → Dev → InodeSet
  | [], ino, dev => [(ino, [dev])]
  | (i, devs) :: rest, ino, dev =>
    if i = ino then (i, if dev ∈ devs then devs else devs ++ [dev]) :: rest
    else (i, devs) :: inode_set_insert rest ino dev

/-! ## Kernel environment and directory entries -/

/-- The `d_type` of `struct linux_dirent64` as classified by the scanner
(inotify-info.cpp:565-597): regular file, symlink, directory, or any
of the other types (block/char device, FIFO, socket, unknown). -/
inductive DType where
  | reg
  | lnk
  | dir
  | other
  deriving DecidableEq, Repr

/-- One `struct linux_dirent64` entry (inotify-info.cpp:197-203);
`d_off`/`d_reclen` only step the cursor and are dropped. -/
structure linux_dirent64 where
  d_ino : Ino
  d_type : DType
  d_name : Path
  deriving DecidableEq, Repr

/-- The kernel, as seen by the scanner: syscall results for each path.
The filesystem tree is static during the scan (the program is
best-effort, race-tolerant; we model the race-free executions). -/
structure FsEnv where
  /-- `open(path, O_RDONLY|O_DIRECTORY)` + the `sys_getdents64` batches,
  flattened: `none` means the open failed, `some entries` the complete
  entry list read from the directory. -/
  readdir : Path → Option (List linux_dirent64)
  /-- `statfs(path).f_type`; `none` means the `statfs` call failed. -/
  statfs_ftype : Path → Option Nat
  /-- `stat_get_dev_t(path)` (inotify-info.cpp:411-416 / 427-437):
  the device id of the file, `0` when the stat fails. -/
  stat_dev : Path → Dev
  /-- `stat_get_ino(path)` (inotify-info.cpp:418-421 / 439-450). -/
  stat_ino : Path → Ino

/-- Constant `PROC_SUPER_MAGIC` (inotify-info.cpp:491). -/
def PROC_SUPER_MAGIC : Nat := 0x9fa0

/-- Constant `FUSE_SUPER_MAGIC` (inotify-info.cpp:495). -/
def FUSE_SUPER_MAGIC : Nat := 0x65735546

/-- Embeds `is_dot_dir` (inotify-info.cpp:477-488): the name is "." or "..". -/
def is_dot_dir : Path → Bool
  | ['.'] => true
  | ['.', '.'] => true
  | _ => false

/-- The `statfs` + `f_type` switch of `is_proc_dir`
(inotify-info.cpp:505-511) applied to an already-concatenated path:
true iff `statfs` succeeds and reports a proc or fuse filesystem. -/
def is_proc_path (env : FsEnv) (filename : Path) : Bool :=
  match env.statfs_ftype filename with
  | some t => t = PROC_SUPER_MAGIC ∨ t = FUSE_SUPER_MAGIC
  | none => false

/-- Embeds `is_proc_dir(path, d_name)` (inotify-info.cpp:500-514). -/
def is_proc_dir (env : FsEnv) (path d_name : Path) : Bool :=
  is_proc_path env (path ++ d_name)

/-! ## Found files and the scanner -/

/-- Struct `filename_info_t` (inotify-info.cpp:96-100).  The inode (`ino64_t`)
and device id (`dev_t`) fields are written as plain `Nat` (the same
types as `Ino` and `Dev`). -/
structure filename_info_t where
  inode : Nat
  dev : Nat
  filename : Path
  deriving DecidableEq, Repr

/-- Embeds `thread_info_t::add_filename` (inotify-info.cpp:454-475), acting on
the worker's `found_files` vector: if `inode` is a key of the index,
resolve the device id of `path + d_name` and append a record iff that
device id is a member of the inode's device set; a directory record
gets a trailing `/`. -/
def add_filename (env : FsEnv) (iset : InodeSet) (found : List filename_info_t)
    (inode : Ino) (path d_name : Path) (is_dir : Bool) : List filename_info_t :=
  match inode_set_find iset inode with
  | none => found
  | some dev_set =>
    let filename := path ++ d_name
    let dev := env.stat_dev filename
    if dev ∈ dev_set then
      found ++ [{ inode := inode, dev := dev,
                  filename := if is_dir then filename ++ ['/'] else filename }]
    else found

/-- The shared scan state: the queue pool plus the workers' results.
`found_files`, `scanned_dirs` are per-worker in the source and merged at
join time; since we only reason about their merged contents they are
kept merged here.  `visited` is the ghost trace of directories that were
successfully opened (each one increments `scanned_dirs`,
inotify-info.cpp:541), and `enq_trace` the ghost trace of every path
ever passed to `queue_directory` (seed included). -/
structure scan_state where
  queues : List (lfqueue Path)
  scanned_dirs : Nat
  found_files : List filename_info_t
  visited : List Path
  enq_trace : List Path
  deriving DecidableEq, Repr

/-- Embeds `thread_info_t::queue_directory` (inotify-info.cpp:374-377): enqueue
onto the owner's queue only. -/
def queue_directory (idx : Nat) (st : scan_state) (p : Path) : scan_state :=
  { st with
    queues := st.queues.set idx (_enqueue (st.queues.getD idx lfqueue_empty) p)
    enq_trace := st.enq_trace ++ [p] }

/-- Processing of one directory entry by the loop body of
`parse_dirqueue_entry` (inotify-info.cpp:565-600).  Regular files and
symlinks are tested against the index; a subdirectory is processed only
if it is neither "."/".." nor on a proc/fuse filesystem, in which case
it is first tested against the index and then its child path
`path + d_name + "/"` is enqueued onto the worker's own queue.  (The
`malloc` of the child path is modelled as succeeding; on failure the
source silently drops the child, a documented limitation.) -/
def process_dirent (env : FsEnv) (iset : InodeSet) (idx : Nat) (path : Path)
    (st : scan_state) (dirp : linux_dirent64) : scan_state :=
  match dirp.d_type with
  | .reg | .lnk =>
    { st with found_files := add_filename env iset st.found_files dirp.d_ino path dirp.d_name false }
  | .dir =>
    if !is_dot_dir dirp.d_name && !is_proc_dir env path dirp.d_name then
      let st := { st with
        found_files := add_filename env iset st.found_files dirp.d_ino path dirp.d_name true }
      queue_directory idx st (path ++ dirp.d_name ++ ['/'])
    else st
  | .other => st

/-- Embeds `thread_info_t::parse_dirqueue_entry` (inotify-info.cpp:516-606) for
worker `idx`.  Returns `-1` when every queue was observed empty, `0`
when the dequeued path is on the ignore list or cannot be opened, `1`
after a successful scan of the dequeued directory. -/
def parse_dirqueue_entry (env : FsEnv) (iset : InodeSet) (ignore_dirs : List Path)
    (idx : Nat) (st : scan_state) : Int × scan_state :=
  match dequeue_directory idx st.queues with
  | (none, qs') => (-1, { st with queues := qs' })
  | (some path, qs') =>
    let st := { st with queues := qs' }
    if path ∈ ignore_dirs then (0, st)
    else
      match env.readdir path with
      | none => (0, st)
      | some entries =>
        let st := { st with
          scanned_dirs := st.scanned_dirs + 1
          visited := st.visited ++ [path] }
        (1, entries.foldl (process_dirent env iset idx path) st)

/-- One scheduled step: worker `idx` performs one `parse_dirqueue_entry`
call (the body of `parse_dirqueue_threadproc`, inotify-info.cpp:608-619). -/
def scan_step (env : FsEnv) (iset : InodeSet) (ignore_dirs : List Path)
    (st : scan_state) (idx : Nat) : scan_state :=
  (parse_dirqueue_entry env iset ignore_dirs idx st).2

/-- Run the workers under an arbitrary interleaving `sched` of worker
indices. -/
def run_sched (env : FsEnv) (iset : InodeSet) (ignore_dirs : List Path)
    (sched : List Nat) (st : scan_state) : scan_state :=
  sched.foldl (scan_step env iset ignore_dirs) st

/-! ## ScanCoordinator (thread_shared_data_t::init,
find_files_in_inode_set; inotify-info.cpp:795-892) -/

/-- Struct `procinfo_t` restricted to the fields the scan consumes
(inotify-info.cpp:105-129): the command-line selection flag and the
per-device watched-inode sets parsed from `/proc/<pid>/fdinfo`. -/
structure procinfo_t where
  pid : Nat
  in_cmd_line : Bool
  dev_map : List (Dev × List Ino)
  deriving DecidableEq, Repr

/-- The index-building fold of `thread_shared_data_t::init`
(inotify-info.cpp:797-808): for every selected process, fold its
`dev_map` into `inode -> {device...}`. -/
def tsd_inode_set (inotify_proclist : List procinfo_t) : InodeSet :=
  inotify_proclist.foldl
    (fun iset procinfo =>
      if procinfo.in_cmd_line then
        procinfo.dev_map.foldl
          (fun iset dm => dm.2.foldl (fun iset ino => inode_set_insert iset ino dm.1) iset)
          iset
      else iset)
    []

/-- The queue-creation step of `thread_shared_data_t::init`
(inotify-info.cpp:810-812): `dirqueues.resize(numthreads)` happens only
when the index is non-empty. -/
def tsd_dirqueues (numthreads : Nat) (iset : InodeSet) : List (lfqueue Path) :=
  if iset.isEmpty then [] else List.replicate numthreads lfqueue_empty

/-- The seeding of the scan by thread 0 (inotify-info.cpp:837-842): test
the root itself against the index (`add_filename(stat_get_ino("/"),
"/", "", false)`), then enqueue "/" onto worker 0's queue. -/
def initial_state (env : FsEnv) (iset : InodeSet) (numthreads : Nat) : scan_state :=
  let st : scan_state :=
    { queues := tsd_dirqueues numthreads iset
      scanned_dirs := 0
      found_files := []
      visited := []
      enq_trace := [] }
  let st := { st with
    found_files := add_filename env iset st.found_files (env.stat_ino ['/']) ['/'] [] false }
  queue_directory 0 st ['/']

/-- The comparator sorting the merged result list
(inotify-info.cpp:879-887). -/
def filename_info_less (a b : filename_info_t) : Bool :=
  if a.dev = b.dev then a.inode < b.inode else a.dev < b.dev

/-- Embeds `std::sort(all_found_files.begin(), all_found_files.end(),
filename_info_less_func)` (inotify-info.cpp:889): some permutation of
the input that is sorted for the strict weak order
`filename_info_less`. -/
def sort_found (l : List filename_info_t) : List filename_info_t :=
  l.mergeSort (fun a b => !filename_info_less b a)

/-- Embeds `find_files_in_inode_set` (inotify-info.cpp:817-892): build the
index; if it is empty return immediately with zero scanned directories
and no matches (no queues, no scan).  Otherwise seed worker 0, run the
workers (the first step of the schedule being thread 0's synchronous
`parse_dirqueue_entry` call at line 842), and return the total
directory count and the sorted merged match list (plus the ghost
visited trace). -/
def find_files_in_inode_set (env : FsEnv) (numthreads : Nat)
    (inotify_proclist : List procinfo_t) (ignore_dirs : List Path)
    (sched : List Nat) : Nat × List filename_info_t × List Path :=
  let iset := tsd_inode_set inotify_proclist
  if iset.isEmpty then (0, [], [])
  else
    let fin := run_sched env iset ignore_dirs (0 :: sched)
      (initial_state env iset (max 1 numthreads))
    (fin.scanned_dirs, sort_found fin.found_files, fin.visited)

/-- Normalization applied to each ignore-list entry by
`parse_config_file` (inotify-info.cpp:957-963) and by the
`--ignoredir` handler in `parse_cmdline` (inotify-info.cpp:1052-1058):
append a `/` unless the entry already ends in one. -/
def normalize_ignore_dir (s : Path) : Path :=
  if s.getLast? = some '/' then s else s ++ ['/']

/-! ## Helper lemmas -/

theorem foldl_enqueue_chain {α : Type} (l : List α) (q : lfqueue α) :
    (List.foldl _enqueue q l).chain = q.chain ++ l := by
  induction l generalizing q with
  | nil => simp
  | cons a l ih => simp [_enqueue, ih, List.append_assoc]

theorem drainN_chain {α : Type} :
    ∀ (c : List α) (s : Option α), drainN c.length { sent := s, chain := c } = c := by
  intro c
  induction c with
  | nil => intro s; rfl
  | cons v rest ih => intro s; simp [drainN, _dequeue, ih]

theorem pool_sweep_fst (qs : List (lfqueue Path)) :
    (pool_sweep qs).1 = qs.findSome? (fun q => q.chain.head?) := by
  induction qs with
  | nil => rfl
  | cons q rest ih =>
    match hq : q.chain with
    | [] => simp [pool_sweep, _dequeue, hq, List.findSome?, ih]
    | v :: c => simp [pool_sweep, _dequeue, hq, List.findSome?]

theorem findSome_head_eq_none (qs : List (lfqueue Path)) :
    qs.findSome? (fun q => q.chain.head?) = none ↔ ∀ q ∈ qs, q.chain = [] := by
  induction qs with
  | nil => simp
  | cons q rest ih =>
    match hq : q.chain with
    | [] => simp [List.findSome?, hq, ih]
    | v :: c => simp [List.findSome?, hq]

theorem getD_of_all_eq {α : Type} {l : List α} {d : α} (h : ∀ x ∈ l, x = d)
    (i : Nat) : l.getD i d = d := by
  by_cases hi : i < l.length
  · rw [List.getD_eq_getElem l d hi]
    exact h _ (List.getElem_mem hi)
  · exact List.getD_eq_default l d (Nat.le_of_not_lt hi)

theorem getD_mem_of_chain_cons {qs : List (lfqueue Path)} {idx : Nat} {v : Path}
    {c : List Path} (hq : (qs.getD idx lfqueue_empty).chain = v :: c) :
    qs.getD idx lfqueue_empty ∈ qs := by
  by_cases hidx : idx < qs.length
  · rw [List.getD_eq_getElem qs lfqueue_empty hidx]
    exact List.getElem_mem hidx
  · rw [List.getD_eq_default qs lfqueue_empty (Nat.le_of_not_lt hidx)] at hq
    cases hq

theorem pool_sweep_mem_of_some {qs : List (lfqueue Path)} {p : Path}
    (h : (pool_sweep qs).1 = some p) : ∃ q ∈ qs, p ∈ q.chain := by
  induction qs with
  | nil => simp [pool_sweep] at h
  | cons q rest ih =>
    cases hq : q.chain with
    | nil =>
      simp only [pool_sweep, _dequeue, hq] at h
      obtain ⟨q0, hq0, hp⟩ := ih h
      exact ⟨q0, List.mem_cons_of_mem _ hq0, hp⟩
    | cons v c =>
      simp only [pool_sweep, _dequeue, hq, Option.some.injEq] at h
      exact ⟨q, List.mem_cons_self _ _, by rw [hq, ← h]; exact List.mem_cons_self _ _⟩

theorem pool_sweep_sub {qs : List (lfqueue Path)} :
    ∀ q' ∈ (pool_sweep qs).2, ∀ x ∈ q'.chain, ∃ q ∈ qs, x ∈ q.chain := by
  induction qs with
  | nil => simp [pool_sweep]
  | cons q rest ih =>
    intro q' hq' x hx
    cases hq : q.chain with
    | nil =>
      simp only [pool_sweep, _dequeue, hq, List.mem_cons] at hq'
      rcases hq' with h | h
      · rw [h] at hx
        exact ⟨q, List.mem_cons_self _ _, hx⟩
      · obtain ⟨q0, hq0, hp⟩ := ih q' h x hx
        exact ⟨q0, List.mem_cons_of_mem _ hq0, hp⟩
    | cons v c =>
      simp only [pool_sweep, _dequeue, hq, List.mem_cons] at hq'
      rcases hq' with h | h
      · subst h
        refine ⟨q, List.mem_cons_self _ _, ?_⟩
        rw [hq]
        exact List.mem_cons_of_mem _ hx
      · exact ⟨q', List.mem_cons_of_mem _ h, hx⟩

theorem dequeue_directory_mem_of_some {idx : Nat} {qs : List (lfqueue Path)} {p : Path}
    (h : (dequeue_directory idx qs).1 = some p) : ∃ q ∈ qs, p ∈ q.chain := by
  simp only [dequeue_directory, _dequeue] at h
  rcases hq : (qs.getD idx lfqueue_empty).chain with _ | ⟨v, c⟩
  · rw [hq] at h
    exact pool_sweep_mem_of_some h
  · rw [hq] at h
    simp only [Option.some.injEq] at h
    refine ⟨qs.getD idx lfqueue_empty, getD_mem_of_chain_cons hq, ?_⟩
    rw [hq, ← h]
    exact List.mem_cons_self _ _

theorem dequeue_directory_sub {idx : Nat} {qs : List (lfqueue Path)} :
    ∀ q' ∈ (dequeue_directory idx qs).2, ∀ x ∈ q'.chain, ∃ q ∈ qs, x ∈ q.chain := by
  intro q' hq' x hx
  rcases hq : (qs.getD idx lfqueue_empty).chain with _ | ⟨v, c⟩
  · have he : (dequeue_directory idx qs).2 = (pool_sweep qs).2 := by
      simp only [dequeue_directory, _dequeue]
      rw [hq]
    rw [he] at hq'
    exact pool_sweep_sub q' hq' x hx
  · have he : (dequeue_directory idx qs).2 =
        qs.set idx { sent := some v, chain := c } := by
      simp only [dequeue_directory, _dequeue]
      rw [hq]
    rw [he] at hq'
    rcases List.mem_or_eq_of_mem_set hq' with h | h
    · exact ⟨q', h, hx⟩
    · subst h
      refine ⟨qs.getD idx lfqueue_empty, getD_mem_of_chain_cons hq, ?_⟩
      rw [hq]
      exact List.mem_cons_of_mem _ hx

/-- Every chain element of every queue was enqueued at some point
(appears in the ghost enqueue trace). -/
def chains_sub_trace (st : scan_state) : Prop :=
  ∀ q ∈ st.queues, ∀ p ∈ q.chain, p ∈ st.enq_trace

theorem queue_directory_chains {idx : Nat} {st : scan_state} {p : Path}
    (h : chains_sub_trace st) : chains_sub_trace (queue_directory idx st p) := by
  intro q' hq' x hx
  simp only [queue_directory] at hq' ⊢
  rcases List.mem_or_eq_of_mem_set hq' with hm | hm
  · exact List.mem_append_left _ (h q' hm x hx)
  · subst hm
    simp only [_enqueue] at hx
    rcases List.mem_append.mp hx with hm | hm
    · rcases hc : (st.queues.getD idx lfqueue_empty).chain with _ | ⟨v, c⟩
      · rw [hc] at hm
        cases hm
      · exact List.mem_append_left _
          (h _ (getD_mem_of_chain_cons hc) x (hc ▸ hm))
    · simp only [List.mem_singleton] at hm
      subst hm
      exact List.mem_append_right _ (List.mem_singleton.mpr rfl)

theorem mem_add_filename {env : FsEnv} {iset : InodeSet} {found : List filename_info_t}
    {inode : Ino} {path d_name : Path} {is_dir : Bool} {r : filename_info_t}
    (h : r ∈ add_filename env iset found inode path d_name is_dir) :
    r ∈ found ∨ r.filename =
      (if is_dir then (path ++ d_name) ++ ['/'] else path ++ d_name) := by
  unfold add_filename at h
  rcases hf : inode_set_find iset inode with _ | devs
  · rw [hf] at h
    exact Or.inl h
  · rw [hf] at h
    simp only at h
    by_cases hd : env.stat_dev (path ++ d_name) ∈ devs
    · rw [if_pos hd] at h
      rcases List.mem_append.mp h with hm | hm
      · exact Or.inl hm
      · simp only [List.mem_singleton] at hm
        subst hm
        cases is_dir <;> simp
    · rw [if_neg hd] at h
      exact Or.inl h

theorem process_dirent_visited (env : FsEnv) (iset : InodeSet) (idx : Nat)
    (path : Path) (st : scan_state) (e : linux_dirent64) :
    (process_dirent env iset idx path st e).visited = st.visited := by
  obtain ⟨ino, ty, nm⟩ := e
  cases ty
  case dir =>
    simp only [process_dirent]
    split <;> rfl
  all_goals rfl

theorem process_dirent_trace_mono (env : FsEnv) (iset : InodeSet) (idx : Nat)
    (path : Path) (st : scan_state) (e : linux_dirent64) {p : Path}
    (h : p ∈ st.enq_trace) :
    p ∈ (process_dirent env iset idx path st e).enq_trace := by
  obtain ⟨ino, ty, nm⟩ := e
  cases ty <;> simp only [process_dirent]
  · exact h
  · exact h
  · split
    · exact List.mem_append_left _ h
    · exact h
  · exact h

theorem process_dirent_trace (env : FsEnv) (iset : InodeSet) (idx : Nat)
    (path : Path) (st : scan_state) (e : linux_dirent64) :
    ∀ p ∈ (process_dirent env iset idx path st e).enq_trace,
      p ∈ st.enq_trace ∨
        (e.d_type = .dir ∧ is_dot_dir e.d_name = false ∧
         is_proc_dir env path e.d_name = false ∧ p = path ++ e.d_name ++ ['/']) := by
  intro p hp
  obtain ⟨ino, ty, nm⟩ := e
  cases ty <;> simp only [process_dirent] at hp
  · exact Or.inl hp
  · exact Or.inl hp
  · rcases hcond : (!is_dot_dir nm && !is_proc_dir env path nm) with _ | _
    · rw [hcond] at hp
      simp only [Bool.false_eq_true, if_false] at hp
      exact Or.inl hp
    · rw [hcond] at hp
      simp only [if_true, queue_directory] at hp
      rcases List.mem_append.mp hp with hm | hm
      · exact Or.inl hm
      · simp only [List.mem_singleton] at hm
        simp only [Bool.and_eq_true, Bool.not_eq_true'] at hcond
        exact Or.inr ⟨rfl, hcond.1, hcond.2, hm⟩
  · exact Or.inl hp

theorem process_dirent_found (env : FsEnv) (iset : InodeSet) (idx : Nat)
    (path : Path) (st : scan_state) (e : linux_dirent64) :
    ∀ r ∈ (process_dirent env iset idx path st e).found_files,
      r ∈ st.found_files ∨ r.filename = path ++ e.d_name ∨
        r.filename = (path ++ e.d_name) ++ ['/'] := by
  intro r hr
  obtain ⟨ino, ty, nm⟩ := e
  cases ty <;> simp only [process_dirent] at hr
  · rcases mem_add_filename hr with hm | hm
    · exact Or.inl hm
    · simp only [if_neg Bool.false_ne_true] at hm
      exact Or.inr (Or.inl hm)
  · rcases mem_add_filename hr with hm | hm
    · exact Or.inl hm
    · simp only [if_neg Bool.false_ne_true] at hm
      exact Or.inr (Or.inl hm)
  · rcases hcond : (!is_dot_dir nm && !is_proc_dir env path nm) with _ | _
    · rw [hcond] at hr
      simp only [Bool.false_eq_true, if_false] at hr
      exact Or.inl hr
    · rw [hcond] at hr
      simp only [if_true, queue_directory] at hr
      rcases mem_add_filename hr with hm | hm
      · exact Or.inl hm
      · simp only [if_pos rfl] at hm
        exact Or.inr (Or.inr hm)
  · exact Or.inl hr

theorem process_dirent_chains (env : FsEnv) (iset : InodeSet) (idx : Nat)
    (path : Path) (st : scan_state) (e : linux_dirent64)
    (h : chains_sub_trace st) :
    chains_sub_trace (process_dirent env iset idx path st e) := by
  obtain ⟨ino, ty, nm⟩ := e
  cases ty <;> simp only [process_dirent]
  · exact h
  · exact h
  · split
    · exact queue_directory_chains h
    · exact h
  · exact h

theorem foldl_process_visited (env : FsEnv) (iset : InodeSet) (idx : Nat)
    (path : Path) :
    ∀ (entries : List linux_dirent64) (st : scan_state),
      (entries.foldl (process_dirent env iset idx path) st).visited = st.visited := by
  intro entries
  induction entries with
  | nil => intro st; rfl
  | cons e rest ih =>
    intro st
    rw [List.foldl_cons, ih, process_dirent_visited]

theorem foldl_process_trace_mono (env : FsEnv) (iset : InodeSet) (idx : Nat)
    (path : Path) :
    ∀ (entries : List linux_dirent64) (st : scan_state) (p : Path),
      p ∈ st.enq_trace →
      p ∈ (entries.foldl (process_dirent env iset idx path) st).enq_trace := by
  intro entries
  induction entries with
  | nil => intro st p hp; exact hp
  | cons e rest ih =>
    intro st p hp
    rw [List.foldl_cons]
    exact ih _ p (process_dirent_trace_mono env iset idx path st e hp)

theorem foldl_process_trace (env : FsEnv) (iset : InodeSet) (idx : Nat)
    (path : Path) :
    ∀ (entries : List linux_dirent64) (st : scan_state) (p : Path),
      p ∈ (entries.foldl (process_dirent env iset idx path) st).enq_trace →
      p ∈ st.enq_trace ∨ ∃ e ∈ entries,
        e.d_type = .dir ∧ is_dot_dir e.d_name = false ∧
        is_proc_dir env path e.d_name = false ∧ p = path ++ e.d_name ++ ['/'] := by
  intro entries
  induction entries with
  | nil => intro st p hp; exact Or.inl hp
  | cons e rest ih =>
    intro st p hp
    rw [List.foldl_cons] at hp
    rcases ih _ p hp with hm | ⟨e', he', hprop⟩
    · rcases process_dirent_trace env iset idx path st e p hm with hm2 | hm2
      · exact Or.inl hm2
      · exact Or.inr ⟨e, List.mem_cons_self _ _, hm2⟩
    · exact Or.inr ⟨e', List.mem_cons_of_mem _ he', hprop⟩

theorem foldl_process_found (env : FsEnv) (iset : InodeSet) (idx : Nat)
    (path : Path) :
    ∀ (entries : List linux_dirent64) (st : scan_state) (r : filename_info_t),
      r ∈ (entries.foldl (process_dirent env iset idx path) st).found_files →
      r ∈ st.found_files ∨ ∃ e ∈ entries,
        r.filename = path ++ e.d_name ∨ r.filename = (path ++ e.d_name) ++ ['/'] := by
  intro entries
  induction entries with
  | nil => intro st r hr; exact Or.inl hr
  | cons e rest ih =>
    intro st r hr
    rw [List.foldl_cons] at hr
    rcases ih _ r hr with hm | ⟨e', he', hprop⟩
    · rcases process_dirent_found env iset idx path st e r hm with hm2 | hm2
      · exact Or.inl hm2
      · exact Or.inr ⟨e, List.mem_cons_self _ _, hm2⟩
    · exact Or.inr ⟨e', List.mem_cons_of_mem _ he', hprop⟩

theorem foldl_process_chains (env : FsEnv) (iset : InodeSet) (idx : Nat)
    (path : Path) :
    ∀ (entries : List linux_dirent64) (st : scan_state),
      chains_sub_trace st →
      chains_sub_trace (entries.foldl (process_dirent env iset idx path) st) := by
  intro entries
  induction entries with
  | nil => intro st h; exact h
  | cons e rest ih =>
    intro st h
    rw [List.foldl_cons]
    exact ih _ (process_dirent_chains env iset idx path st e h)

/-- Control-flow characterization of one worker step: either nothing but
the queues changed (empty dequeue, ignored path, or failed open), or a
path that sat on some queue and is not ignored was opened and its entries
were folded over the state with `visited` extended by that path.  In both
cases the new queues' chains only hold paths that were already on some
queue. -/
theorem scan_step_cases (env : FsEnv) (iset : InodeSet) (ign : List Path)
    (st : scan_state) (idx : Nat) :
    ∃ qs', (∀ q' ∈ qs', ∀ x ∈ q'.chain, ∃ q ∈ st.queues, x ∈ q.chain) ∧
      (scan_step env iset ign st idx = { st with queues := qs' } ∨
       ∃ path entries,
         (∃ q ∈ st.queues, path ∈ q.chain) ∧ path ∉ ign ∧
         env.readdir path = some entries ∧
         scan_step env iset ign st idx =
           entries.foldl (process_dirent env iset idx path)
             { st with
               queues := qs'
               scanned_dirs := st.scanned_dirs + 1
               visited := st.visited ++ [path] }) := by
  rcases hdq : dequeue_directory idx st.queues with ⟨r, qs'⟩
  have hsub : ∀ q' ∈ qs', ∀ x ∈ q'.chain, ∃ q ∈ st.queues, x ∈ q.chain := by
    intro q' hq' x hx
    exact dequeue_directory_sub q' (by rw [hdq]; exact hq') x hx
  refine ⟨qs', hsub, ?_⟩
  cases r with
  | none =>
    left
    simp only [scan_step, parse_dirqueue_entry]
    rw [hdq]
  | some path =>
    have hmem : ∃ q ∈ st.queues, path ∈ q.chain :=
      dequeue_directory_mem_of_some (by rw [hdq])
    by_cases hig : path ∈ ign
    · left
      simp only [scan_step, parse_dirqueue_entry]
      rw [hdq]
      simp [hig]
    · rcases hrd : env.readdir path with _ | entries
      · left
        simp only [scan_step, parse_dirqueue_entry]
        rw [hdq]
        simp [hig, hrd]
      · right
        refine ⟨path, entries, hmem, hig, hrd, ?_⟩
        simp only [scan_step, parse_dirqueue_entry]
        rw [hdq]
        simp [hig, hrd]

/-- Any property of the shared state preserved by every worker step holds
after running the workers under any schedule. -/
theorem run_sched_inv {env : FsEnv} {iset : InodeSet} {ign : List Path}
    (Inv : scan_state → Prop)
    (hstep : ∀ st idx, Inv st → Inv (scan_step env iset ign st idx)) :
    ∀ (sched : List Nat) (st : scan_state), Inv st →
      Inv (run_sched env iset ign sched st) := by
  intro sched
  induction sched with
  | nil => intro st h; exact h
  | cons i rest ih =>
    intro st h
    rw [run_sched, List.foldl_cons]
    exact ih _ (hstep st i h)

theorem pref_of_append_ne {c t nm : Path} (h : c ++ t = nm ++ ['/'])
    (ht : t ≠ []) : c <+: nm := by
  have h1 : c <+: nm ++ ['/'] := ⟨t, h⟩
  have h2 : nm <+: nm ++ ['/'] := ⟨['/'], rfl⟩
  refine List.prefix_of_prefix_length_le h1 h2 ?_
  have hlen := congrArg List.length h
  simp only [List.length_append, List.length_cons, List.length_nil] at hlen
  have ht' : 0 < t.length := List.length_pos.mpr ht
  omega

theorem ends_slash_of_append {d₀ path c : Path}
    (h : d₀ ++ ['/'] = path ++ c) (hc : c ≠ []) : ∃ c₀, c = c₀ ++ ['/'] := by
  rcases hr : c.reverse with _ | ⟨x, tl⟩
  · rw [List.reverse_eq_nil_iff] at hr
    exact absurd hr hc
  · have hcr : c = tl.reverse ++ [x] := by
      have h2 := congrArg List.reverse hr
      simpa using h2
    rw [hcr, ← List.append_assoc] at h
    have h3 := List.append_inj' h (by rfl)
    have hx : x = '/' := by
      have h4 := h3.2
      simp only [List.cons.injEq, and_true] at h4
      exact h4.symm
    exact ⟨tl.reverse, by rw [hcr, hx]⟩

/-- Boundary lemma: a prefix that ends in the path separator either stays
within the parent path or is the whole child path `parent ++ name ++ "/"`,
provided the entry name contains no separator. -/
theorem slash_pref_dir_boundary {d₀ path nm : Path} (hnm : ('/' : Char) ∉ nm)
    (h : (d₀ ++ ['/']) <+: ((path ++ nm) ++ ['/'])) :
    (d₀ ++ ['/']) <+: path ∨ d₀ ++ ['/'] = (path ++ nm) ++ ['/'] := by
  obtain ⟨t, ht⟩ := h
  rw [List.append_assoc path nm ['/']] at ht
  rcases List.append_eq_append_iff.mp ht with ⟨k, hk1, hk2⟩ | ⟨k, hk1, hk2⟩
  · exact Or.inl ⟨k, hk1.symm⟩
  · by_cases hknil : k = []
    · subst hknil
      rw [List.append_nil] at hk1
      exact Or.inl (by rw [hk1])
    · by_cases htnil : t = []
      · subst htnil
        rw [List.append_nil] at hk2
        subst hk2
        right
        rw [hk1]
        exact (List.append_assoc path nm ['/']).symm
      · have hpre : k <+: nm := pref_of_append_ne hk2.symm htnil
        obtain ⟨c₀, hc₀⟩ := ends_slash_of_append hk1 hknil
        have hsl : ('/' : Char) ∈ k := by
          rw [hc₀]
          exact List.mem_append_right _ (List.mem_singleton.mpr rfl)
        exact absurd (hpre.subset hsl) hnm

/-- Boundary lemma, file form: a prefix ending in the separator cannot
reach into a separator-free entry name, so a prefix of `parent ++ name`
is a prefix of `parent`. -/
theorem slash_pref_file_boundary {d₀ path nm : Path} (hnm : ('/' : Char) ∉ nm)
    (h : (d₀ ++ ['/']) <+: (path ++ nm)) : (d₀ ++ ['/']) <+: path := by
  obtain ⟨t, ht⟩ := h
  rcases List.append_eq_append_iff.mp ht with ⟨k, hk1, hk2⟩ | ⟨k, hk1, hk2⟩
  · exact ⟨k, hk1.symm⟩
  · by_cases hknil : k = []
    · subst hknil
      rw [List.append_nil] at hk1
      rw [hk1]
    · obtain ⟨c₀, hc₀⟩ := ends_slash_of_append hk1 hknil
      have hsl : ('/' : Char) ∈ k := by
        rw [hc₀]
        exact List.mem_append_right _ (List.mem_singleton.mpr rfl)
      have hkn : k <+: nm := ⟨t, hk2.symm⟩
      exact absurd (hkn.subset hsl) hnm

theorem slash_pref_root {d₀ : Path} {a : Char} (h : (d₀ ++ ['/']) <+: [a]) :
    d₀ ++ ['/'] = [a] := by
  obtain ⟨t, ht⟩ := h
  have hlen := congrArg List.length ht
  simp only [List.length_append, List.length_cons, List.length_nil] at hlen
  have hd : d₀ = [] := List.length_eq_zero.mp (by omega)
  have htn : t = [] := List.length_eq_zero.mp (by omega)
  subst hd
  subst htn
  simpa using ht

theorem tsd_dirqueues_all_empty {numthreads : Nat} {iset : InodeSet} :
    ∀ q ∈ tsd_dirqueues numthreads iset, q = lfqueue_empty := by
  intro q hq
  unfold tsd_dirqueues at hq
  split at hq
  · cases hq
  · exact List.eq_of_mem_replicate hq

theorem initial_state_facts (env : FsEnv) (iset : InodeSet) (numthreads : Nat) :
    (initial_state env iset numthreads).enq_trace = [['/']]
    ∧ (initial_state env iset numthreads).visited = []
    ∧ (∀ q ∈ (initial_state env iset numthreads).queues, ∀ x ∈ q.chain, x = ['/'])
    ∧ (∀ r ∈ (initial_state env iset numthreads).found_files, r.filename = ['/']) := by
  refine ⟨rfl, rfl, ?_, ?_⟩
  · intro q hq x hx
    simp only [initial_state, queue_directory] at hq
    rcases List.mem_or_eq_of_mem_set hq with hm | hm
    · rw [tsd_dirqueues_all_empty q hm] at hx
      cases hx
    · rw [hm] at hx
      simp only [_enqueue] at hx
      rw [getD_of_all_eq tsd_dirqueues_all_empty 0] at hx
      simpa [lfqueue_empty] using hx
  · intro r hr
    simp only [initial_state] at hr
    rcases mem_add_filename hr with hm | hm
    · cases hm
    · simpa using hm

/-- Invariant for C3: every path ever enqueued is either the root seed or
was guarded by `is_proc_dir` returning false on its slashless form. -/
def proc_trace_inv (env : FsEnv) (st : scan_state) : Prop :=
  chains_sub_trace st ∧
  (∀ p ∈ st.visited, p ∈ st.enq_trace) ∧
  (∀ p ∈ st.enq_trace, p = ['/'] ∨ is_proc_path env p.dropLast = false)

theorem proc_trace_inv_step (env : FsEnv) (iset : InodeSet) (ign : List Path) :
    ∀ (st : scan_state) (idx : Nat), proc_trace_inv env st →
      proc_trace_inv env (scan_step env iset ign st idx) := by
  rintro st idx ⟨hchains, hvis, htrace⟩
  obtain ⟨qs', hsub, hcase | ⟨path, entries, hpmem, hig, hrd, heq⟩⟩ :=
    scan_step_cases env iset ign st idx
  · rw [hcase]
    refine ⟨?_, hvis, htrace⟩
    intro q hq x hx
    obtain ⟨q0, hq0, hx0⟩ := hsub q hq x hx
    exact hchains q0 hq0 x hx0
  · rw [heq]
    have hchains₀ : chains_sub_trace
        { st with
          queues := qs'
          scanned_dirs := st.scanned_dirs + 1
          visited := st.visited ++ [path] } := by
      intro q hq x hx
      obtain ⟨q0, hq0, hx0⟩ := hsub q hq x hx
      exact hchains q0 hq0 x hx0
    refine ⟨foldl_process_chains env iset idx path entries _ hchains₀, ?_, ?_⟩
    · intro p hp
      rw [foldl_process_visited] at hp
      refine foldl_process_trace_mono env iset idx path entries _ p ?_
      rcases List.mem_append.mp hp with hm | hm
      · exact hvis p hm
      · simp only [List.mem_singleton] at hm
        subst hm
        obtain ⟨q0, hq0, hx0⟩ := hpmem
        exact hchains q0 hq0 p hx0
    · intro p hp
      rcases foldl_process_trace env iset idx path entries _ p hp with
        hm | ⟨e, he, hdir, hdot, hproc, hpeq⟩
      · exact htrace p hm
      · right
        subst hpeq
        have hdl : (path ++ e.d_name ++ ['/']).dropLast = path ++ e.d_name := by
          simp
        rw [hdl]
        exact hproc

/-- C3: a subdirectory sitting on a proc or FUSE filesystem (detected by
the `statfs` filesystem-type probe on its slashless path) is never
enqueued onto any queue, never present in any queue, and never entered
(opened and scanned), for every index, ignore list, thread count and
worker interleaving — regardless of whether its subtree would contain
matching inodes. -/
theorem proc_subdir_never_entered (env : FsEnv) (iset : InodeSet) (ign : List Path)
    (numthreads : Nat) (sched : List Nat) (p : Path)
    (hproc : is_proc_path env p.dropLast = true) (hroot : p ≠ ['/']) :
    p ∉ (run_sched env iset ign sched (initial_state env iset numthreads)).enq_trace
    ∧ p ∉ (run_sched env iset ign sched (initial_state env iset numthreads)).visited
    ∧ ∀ q ∈ (run_sched env iset ign sched (initial_state env iset numthreads)).queues,
        p ∉ q.chain := by
  have hinit : proc_trace_inv env (initial_state env iset numthreads) := by
    obtain ⟨htr, hvs, hch, _⟩ := initial_state_facts env iset numthreads
    refine ⟨?_, ?_, ?_⟩
    · intro q hq x hx
      rw [hch q hq x hx, htr]
      exact List.mem_singleton.mpr rfl
    · intro x hx
      rw [hvs] at hx
      cases hx
    · intro x hx
      rw [htr] at hx
      left
      exact List.mem_singleton.mp hx
  obtain ⟨hch, hvs, htr⟩ :=
    run_sched_inv (proc_trace_inv env) (proc_trace_inv_step env iset ign) sched _ hinit
  have hnot : p ∉ (run_sched env iset ign sched
      (initial_state env iset numthreads)).enq_trace := by
    intro hp
    rcases htr p hp with h | h
    · exact hroot h
    · rw [hproc] at h
      cases h
  exact ⟨hnot, fun hp => hnot (hvs p hp), fun q hq hp => hnot (hch q hq p hp)⟩

/-- Concrete one-directory filesystem whose subdirectory "/a" reports the
proc filesystem type. -/
def env_c3 : FsEnv :=
  { readdir := fun p => if p = ['/'] then some [⟨5, .dir, ['a']⟩] else some []
    statfs_ftype := fun p => if p = ['/', 'a'] then some PROC_SUPER_MAGIC else some 0
    stat_dev := fun _ => 7
    stat_ino := fun _ => 5 }

/-- Witness for C3: in `env_c3` the proc subdirectory "/a/" — even though
its inode 5 on device 7 is in the index — is never enqueued, queued, or
visited after the whole scan. -/
theorem proc_subdir_never_entered_witness :
    ['/', 'a', '/'] ∉ (run_sched env_c3 [(5, [7])] [] [0, 0]
        (initial_state env_c3 [(5, [7])] 2)).enq_trace
    ∧ ['/', 'a', '/'] ∉ (run_sched env_c3 [(5, [7])] [] [0, 0]
        (initial_state env_c3 [(5, [7])] 2)).visited :=
  ⟨(proc_subdir_never_entered env_c3 [(5, [7])] [] 2 [0, 0] ['/', 'a', '/']
      (by decide) (by decide)).1,
   (proc_subdir_never_entered env_c3 [(5, [7])] [] 2 [0, 0] ['/', 'a', '/']
      (by decide) (by decide)).2.1⟩

/-- Invariant for C10: every path ever enqueued ends in the separator. -/
def trailing_slash_inv (st : scan_state) : Prop :=
  chains_sub_trace st ∧
  (∀ p ∈ st.visited, p ∈ st.enq_trace) ∧
  (∀ p ∈ st.enq_trace, ∃ p₀, p = p₀ ++ ['/'])

theorem trailing_slash_inv_step (env : FsEnv) (iset : InodeSet) (ign : List Path) :
    ∀ (st : scan_state) (idx : Nat), trailing_slash_inv st →
      trailing_slash_inv (scan_step env iset ign st idx) := by
  rintro st idx ⟨hchains, hvis, htrace⟩
  obtain ⟨qs', hsub, hcase | ⟨path, entries, hpmem, hig, hrd, heq⟩⟩ :=
    scan_step_cases env iset ign st idx
  · rw [hcase]
    refine ⟨?_, hvis, htrace⟩
    intro q hq x hx
    obtain ⟨q0, hq0, hx0⟩ := hsub q hq x hx
    exact hchains q0 hq0 x hx0
  · rw [heq]
    have hchains₀ : chains_sub_trace
        { st with
          queues := qs'
          scanned_dirs := st.scanned_dirs + 1
          visited := st.visited ++ [path] } := by
      intro q hq x hx
      obtain ⟨q0, hq0, hx0⟩ := hsub q hq x hx
      exact hchains q0 hq0 x hx0
    refine ⟨foldl_process_chains env iset idx path entries _ hchains₀, ?_, ?_⟩
    · intro p hp
      rw [foldl_process_visited] at hp
      refine foldl_process_trace_mono env iset idx path entries _ p ?_
      rcases List.mem_append.mp hp with hm | hm
      · exact hvis p hm
      · simp only [List.mem_singleton] at hm
        subst hm
        obtain ⟨q0, hq0, hx0⟩ := hpmem
        exact hchains q0 hq0 p hx0
    · intro p hp
      rcases foldl_process_trace env iset idx path entries _ p hp with
        hm | ⟨e, he, hdir, hdot, hproc, hpeq⟩
      · exact htrace p hm
      · subst hpeq
        exact ⟨path ++ e.d_name, rfl⟩

/-- C10: the seed path is "/" and every child path is built as
`parent ++ name ++ "/"`, so every path ever enqueued onto any queue —
and hence every path sitting on a queue and every path a worker dequeues
and scans — ends with the path separator. -/
theorem queued_paths_end_in_separator (env : FsEnv) (iset : InodeSet)
    (ign : List Path) (numthreads : Nat) (sched : List Nat) :
    (∀ p ∈ (run_sched env iset ign sched
        (initial_state env iset numthreads)).enq_trace, ∃ p₀, p = p₀ ++ ['/'])
    ∧ (∀ p ∈ (run_sched env iset ign sched
        (initial_state env iset numthreads)).visited, ∃ p₀, p = p₀ ++ ['/'])
    ∧ (∀ q ∈ (run_sched env iset ign sched
        (initial_state env iset numthreads)).queues, ∀ p ∈ q.chain,
          ∃ p₀, p = p₀ ++ ['/']) := by
  have hinit : trailing_slash_inv (initial_state env iset numthreads) := by
    obtain ⟨htr, hvs, hch, _⟩ := initial_state_facts env iset numthreads
    refine ⟨?_, ?_, ?_⟩
    · intro q hq x hx
      rw [hch q hq x hx, htr]
      exact List.mem_singleton.mpr rfl
    · intro x hx
      rw [hvs] at hx
      cases hx
    · intro x hx
      rw [htr] at hx
      rw [List.mem_singleton.mp hx]
      exact ⟨[], rfl⟩
  obtain ⟨hch, hvs, htr⟩ :=
    run_sched_inv trailing_slash_inv (trailing_slash_inv_step env iset ign) sched _ hinit
  exact ⟨htr, fun p hp => htr p (hvs p hp), fun q hq p hp => htr p (hch q hq p hp)⟩

/-- Concrete filesystem with one ordinary subdirectory "a" under the root. -/
def env_c10 : FsEnv :=
  { readdir := fun p => if p = ['/'] then some [⟨6, .dir, ['a']⟩] else some []
    statfs_ftype := fun _ => some 0
    stat_dev := fun _ => 7
    stat_ino := fun _ => 5 }

/-- Witness for C10: the child path "/a/" enqueued while scanning the
root ends with the separator. -/
theorem queued_paths_end_in_separator_witness :
    ∃ p₀, ['/', 'a', '/'] = p₀ ++ ['/'] :=
  (queued_paths_end_in_separator env_c10 [(5, [7])] [] 2 [0]).1
    ['/', 'a', '/'] (by decide)

/-- Each entry pushed on `ignore_dirs` by `parse_config_file` or the
`--ignoredir` handler ends in the path separator: both normalize the raw
entry with `normalize_ignore_dir`. -/
theorem normalize_ignore_dir_ends_slash (s : Path) :
    ∃ d₀, normalize_ignore_dir s = d₀ ++ ['/'] := by
  unfold normalize_ignore_dir
  split
  case isTrue h => exact ⟨s.dropLast, (List.dropLast_append_getLast? '/' h).symm⟩
  case isFalse h => exact ⟨s, rfl⟩

/-- Invariant for C9: nothing strictly under the ignored directory is on
any trace: a queued path with the ignored prefix is the ignored directory
itself, no visited path has the prefix at all, and a reported record with
the prefix is the ignored directory itself. -/
def ignore_inv (dname : Path) (st : scan_state) : Prop :=
  chains_sub_trace st ∧
  (∀ p ∈ st.enq_trace, dname <+: p → p = dname) ∧
  (∀ p ∈ st.visited, ¬ dname <+: p) ∧
  (∀ r ∈ st.found_files, dname <+: r.filename → r.filename = dname)

theorem ignore_inv_step (env : FsEnv) (iset : InodeSet) (ign : List Path)
    (d₀ : Path) (hmem : d₀ ++ ['/'] ∈ ign)
    (hnames : ∀ pth entries, env.readdir pth = some entries →
      ∀ e ∈ entries, ('/' : Char) ∉ e.d_name) :
    ∀ (st : scan_state) (idx : Nat), ignore_inv (d₀ ++ ['/']) st →
      ignore_inv (d₀ ++ ['/']) (scan_step env iset ign st idx) := by
  rintro st idx ⟨hch, htr, hvs, hfd⟩
  obtain ⟨qs', hsub, hcase | ⟨path, entries, hpmem, hig, hrd, heq⟩⟩ :=
    scan_step_cases env iset ign st idx
  · rw [hcase]
    refine ⟨?_, htr, hvs, hfd⟩
    intro q hq x hx
    obtain ⟨q0, hq0, hx0⟩ := hsub q hq x hx
    exact hch q0 hq0 x hx0
  · have hptr : path ∈ st.enq_trace := by
      obtain ⟨q0, hq0, hx0⟩ := hpmem
      exact hch q0 hq0 path hx0
    have hpne : path ≠ d₀ ++ ['/'] := fun hcon => hig (hcon ▸ hmem)
    have hnp : ¬ (d₀ ++ ['/']) <+: path := fun hcon => hpne (htr path hptr hcon)
    rw [heq]
    have hchains₀ : chains_sub_trace
        { st with
          queues := qs'
          scanned_dirs := st.scanned_dirs + 1
          visited := st.visited ++ [path] } := by
      intro q hq x hx
      obtain ⟨q0, hq0, hx0⟩ := hsub q hq x hx
      exact hch q0 hq0 x hx0
    refine ⟨foldl_process_chains env iset idx path entries _ hchains₀, ?_, ?_, ?_⟩
    · intro p hp
      rcases foldl_process_trace env iset idx path entries _ p hp with
        hm | ⟨e, he, hdir, hdot, hproc, hpeq⟩
      · exact htr p hm
      · intro hpref
        subst hpeq
        rcases slash_pref_dir_boundary (hnames path entries hrd e he) hpref with hc | hc
        · exact absurd hc hnp
        · exact hc.symm
    · intro p hp
      rw [foldl_process_visited] at hp
      rcases List.mem_append.mp hp with hm | hm
      · exact hvs p hm
      · rw [List.mem_singleton.mp hm]
        exact hnp
    · intro r hr
      rcases foldl_process_found env iset idx path entries _ r hr with
        hm | ⟨e, he, hfe | hfe⟩
      · exact hfd r hm
      · intro hpref
        rw [hfe] at hpref
        exact absurd (slash_pref_file_boundary (hnames path entries hrd e he) hpref) hnp
      · intro hpref
        rw [hfe] at hpref
        rcases slash_pref_dir_boundary (hnames path entries hrd e he) hpref with hc | hc
        · exact absurd hc hnp
        · rw [hfe]
          exact hc.symm

theorem ignore_inv_init (env : FsEnv) (iset : InodeSet) (numthreads : Nat)
    (d₀ : Path) : ignore_inv (d₀ ++ ['/']) (initial_state env iset numthreads) := by
  obtain ⟨htr, hvs, hch, hfd⟩ := initial_state_facts env iset numthreads
  refine ⟨?_, ?_, ?_, ?_⟩
  · intro q hq x hx
    rw [hch q hq x hx, htr]
    exact List.mem_singleton.mpr rfl
  · intro p hp hpref
    rw [htr] at hp
    rw [List.mem_singleton.mp hp] at hpref ⊢
    exact (slash_pref_root hpref).symm
  · intro p hp
    rw [hvs] at hp
    cases hp
  · intro r hr hpref
    rw [hfd r hr] at hpref ⊢
    exact (slash_pref_root hpref).symm

/-- C9: for every configured ignore-list entry — always of the form
`d₀ ++ "/"` after `normalize_ignore_dir` — and under any schedule, no
directory whose path begins with that entry is ever visited (opened,
counted, scanned); no path strictly beneath it is ever enqueued or left
on a queue (only the entry itself may be enqueued, and it is discarded
at dequeue); and no record strictly beneath it is ever reported
(directory-entry names contain no separator, per the kernel contract on
`getdents64`). -/
theorem ignored_subtree_never_entered (env : FsEnv) (iset : InodeSet)
    (ign : List Path) (numthreads : Nat) (sched : List Nat) (d₀ : Path)
    (hmem : d₀ ++ ['/'] ∈ ign)
    (hnames : ∀ pth entries, env.readdir pth = some entries →
      ∀ e ∈ entries, ('/' : Char) ∉ e.d_name) :
    (∀ p ∈ (run_sched env iset ign sched
        (initial_state env iset numthreads)).visited, ¬ (d₀ ++ ['/']) <+: p)
    ∧ (∀ p ∈ (run_sched env iset ign sched
        (initial_state env iset numthreads)).enq_trace,
        (d₀ ++ ['/']) <+: p → p = d₀ ++ ['/'])
    ∧ (∀ q ∈ (run_sched env iset ign sched
        (initial_state env iset numthreads)).queues, ∀ p ∈ q.chain,
        (d₀ ++ ['/']) <+: p → p = d₀ ++ ['/'])
    ∧ (∀ r ∈ (run_sched env iset ign sched
        (initial_state env iset numthreads)).found_files,
        (d₀ ++ ['/']) <+: r.filename → r.filename = d₀ ++ ['/']) := by
  obtain ⟨hch, htr, hvs, hfd⟩ :=
    run_sched_inv (ignore_inv (d₀ ++ ['/']))
      (ignore_inv_step env iset ign d₀ hmem hnames) sched _
      (ignore_inv_init env iset numthreads d₀)
  exact ⟨hvs, htr, fun q hq p hp => htr p (hch q hq p hp), hfd⟩

/-- Directory entries of the concrete C9 filesystem: the root holds
subdirectories "a" (to be ignored) and "b"; "/b/" holds a file "f". -/
def env_c9_entries : Path → List linux_dirent64 := fun p =>
  if p = ['/'] then [⟨6, .dir, ['a']⟩, ⟨7, .dir, ['b']⟩]
  else if p = ['/', 'b', '/'] then [⟨8, .reg, ['f']⟩]
  else []

/-- Concrete environment for the C9 witness. -/
def env_c9 : FsEnv :=
  { readdir := fun p => some (env_c9_entries p)
    statfs_ftype := fun _ => some 0
    stat_dev := fun _ => 7
    stat_ino := fun _ => 5 }

theorem env_c9_names : ∀ pth entries, env_c9.readdir pth = some entries →
    ∀ e ∈ entries, ('/' : Char) ∉ e.d_name := by
  intro pth entries h
  have h2 : env_c9_entries pth = entries := by
    simpa [env_c9] using h
  subst h2
  unfold env_c9_entries
  split
  · decide
  · split
    · decide
    · decide

/-- Witness for C9: with "/a/" on the ignore list, the visited directory
"/b/" (which is in the scan's visited trace) does not carry the ignored
prefix; the theorem instance applies to the concrete three-step scan. -/
theorem ignored_subtree_never_entered_witness :
    ¬ (['/', 'a'] ++ ['/']) <+: ['/', 'b', '/'] :=
  (ignored_subtree_never_entered env_c9 [(5, [7])] [['/', 'a', '/']] 1 [0, 0, 0]
      ['/', 'a'] (by decide) env_c9_names).1 ['/', 'b', '/'] (by decide)

/-- C1: a `FoundFileRecord` is emitted by `add_filename` iff the inode is a
key of the InodeDeviceIndex and the candidate's resolved device id is a
member of that inode's device set; a bare inode match whose device id is
not in the set emits nothing; and any emitted record carries exactly the
concatenated path (with trailing `/` for directories), inode, and
resolved device.  In particular, of two candidate names with the same
inode but different resolved device ids, only the one whose (inode,
device) pair is in the index produces a record. -/
theorem add_filename_device_coverify
    (env : FsEnv) (iset : InodeSet) (found : List filename_info_t)
    (inode : Ino) (path d_name : Path) (is_dir : Bool) :
    (add_filename env iset found inode path d_name is_dir ≠ found ↔
      ∃ devs, inode_set_find iset inode = some devs ∧
        env.stat_dev (path ++ d_name) ∈ devs)
    ∧ (add_filename env iset found inode path d_name is_dir = found ∨
       add_filename env iset found inode path d_name is_dir =
         found ++ [{ inode := inode, dev := env.stat_dev (path ++ d_name),
                     filename := if is_dir then (path ++ d_name) ++ ['/'] else path ++ d_name }])
    ∧ (∀ d_name2 devs, inode_set_find iset inode = some devs →
        env.stat_dev (path ++ d_name) ∈ devs →
        env.stat_dev (path ++ d_name2) ∉ devs →
        add_filename env iset found inode path d_name is_dir ≠ found ∧
        add_filename env iset found inode path d_name2 is_dir = found) := by
  have hne : ∀ (r : filename_info_t), found ++ [r] ≠ found := by
    intro r h
    have := congrArg List.length h
    simp at this
  refine ⟨?_, ?_, ?_⟩
  · constructor
    · intro h
      unfold add_filename at h
      match hf : inode_set_find iset inode with
      | none => rw [hf] at h; simp at h
      | some devs =>
        rw [hf] at h
        simp only at h
        by_cases hd : env.stat_dev (path ++ d_name) ∈ devs
        · exact ⟨devs, rfl, hd⟩
        · simp [hd] at h
    · rintro ⟨devs, hf, hd⟩
      unfold add_filename
      rw [hf]
      simp only [hd, if_pos]
      exact hne _
  · unfold add_filename
    match hf : inode_set_find iset inode with
    | none => left; rfl
    | some devs =>
      by_cases hd : env.stat_dev (path ++ d_name) ∈ devs
      · right; simp [hd]
      · left; simp [hd]
  · intro d_name2 devs hf hd1 hd2
    constructor
    · unfold add_filename
      rw [hf]
      simp only [hd1, if_pos]
      exact hne _
    · unfold add_filename
      rw [hf]
      simp [hd2]

/-- Witness for C1 on a concrete index and environment: two names with
the same inode resolving to devices 7 and 9, index containing only
(5, 7); the name on device 7 is reported, the one on device 9 is not. -/
theorem add_filename_device_coverify_witness :
    add_filename
        { readdir := fun _ => none
          statfs_ftype := fun _ => some 0
          stat_dev := fun p => if p = ['/', 'x'] then 7 else 9
          stat_ino := fun _ => 5 }
        [(5, [7])] [] 5 ['/'] ['x'] false ≠ [] ∧
    add_filename
        { readdir := fun _ => none
          statfs_ftype := fun _ => some 0
          stat_dev := fun p => if p = ['/', 'x'] then 7 else 9
          stat_ino := fun _ => 5 }
        [(5, [7])] [] 5 ['/'] ['y'] false = [] :=
  (add_filename_device_coverify _ [(5, [7])] [] 5 ['/'] ['x'] false).2.2
    ['y'] [7] rfl (by decide) (by decide)

/-- C7: when a directory matches the index, the emitted record's path is
the concatenation plus a trailing `/` (so its last character is `/`);
when a file or symlink of the same name matches, the record is the bare
concatenation with nothing appended. -/
theorem add_filename_dir_trailing_separator
    (env : FsEnv) (iset : InodeSet) (found : List filename_info_t)
    (inode : Ino) (path d_name : Path) (devs : List Dev)
    (hf : inode_set_find iset inode = some devs)
    (hd : env.stat_dev (path ++ d_name) ∈ devs) :
    (add_filename env iset found inode path d_name true =
       found ++ [{ inode := inode, dev := env.stat_dev (path ++ d_name),
                   filename := (path ++ d_name) ++ ['/'] }]
     ∧ ((path ++ d_name) ++ ['/']).getLast? = some '/')
    ∧ add_filename env iset found inode path d_name false =
       found ++ [{ inode := inode, dev := env.stat_dev (path ++ d_name),
                   filename := path ++ d_name }] := by
  unfold add_filename
  rw [hf]
  refine ⟨⟨by simp [hd], ?_⟩, by simp [hd]⟩
  simp

/-- Witness for C7: a watched directory `/w` on device 7 is reported as
"/w/", the file of the same name as "/w". -/
theorem add_filename_dir_trailing_separator_witness :
    (add_filename
        { readdir := fun _ => none, statfs_ftype := fun _ => some 0
          stat_dev := fun _ => 7, stat_ino := fun _ => 5 }
        [(5, [7])] [] 5 ['/'] ['w'] true =
      [{ inode := 5, dev := 7, filename := ['/', 'w', '/'] }]
     ∧ (['/', 'w', '/'] : Path).getLast? = some '/')
    ∧ add_filename
        { readdir := fun _ => none, statfs_ftype := fun _ => some 0
          stat_dev := fun _ => 7, stat_ino := fun _ => 5 }
        [(5, [7])] [] 5 ['/'] ['w'] false =
      [{ inode := 5, dev := 7, filename := ['/', 'w'] }] :=
  add_filename_dir_trailing_separator _ [(5, [7])] [] 5 ['/'] ['w'] [7] rfl (by decide)

/-- C5: the pool-level dequeue first attempts the worker's own queue; if
that is empty it sweeps every queue of the pool in order and returns the
first non-empty result (the head of the first queue with a non-empty
chain); it returns empty iff every queue in the pool was observed empty. -/
theorem dequeue_directory_steal_order (idx : Nat) (qs : List (lfqueue Path)) :
    ((dequeue_directory idx qs).1 =
       match (qs.getD idx lfqueue_empty).chain with
       | v :: _ => some v
       | [] => qs.findSome? (fun q => q.chain.head?))
    ∧ ((dequeue_directory idx qs).1 = none ↔ ∀ q ∈ qs, q.chain = []) := by
  have h1 : (dequeue_directory idx qs).1 =
      match (qs.getD idx lfqueue_empty).chain with
      | v :: _ => some v
      | [] => qs.findSome? (fun q => q.chain.head?) := by
    simp only [dequeue_directory, _dequeue]
    match hq : (qs.getD idx lfqueue_empty).chain with
    | [] => simp [pool_sweep_fst]
    | v :: c => simp
  refine ⟨h1, ?_⟩
  rw [h1]
  match hq : (qs.getD idx lfqueue_empty).chain with
  | v :: c =>
    simp only
    constructor
    · intro h; cases h
    · intro hall
      by_cases hidx : idx < qs.length
      · have : qs.getD idx lfqueue_empty ∈ qs := by
          rw [List.getD_eq_getElem qs lfqueue_empty hidx]
          exact List.getElem_mem hidx
        have := hall _ this
        rw [hq] at this
        cases this
      · rw [List.getD_eq_default qs lfqueue_empty (Nat.le_of_not_lt hidx)] at hq
        cases hq
  | [] =>
    simp only
    exact findSome_head_eq_none qs

/-- Witness for C5: worker 0's queue is empty, worker 1's queue holds
"/b/"; the sweep steals it.  With all queues empty the dequeue reports
empty. -/
theorem dequeue_directory_steal_order_witness :
    ((dequeue_directory 0
        [{ sent := none, chain := [] }, { sent := none, chain := [['b']] }]).1 = some ['b'])
    ∧ ((dequeue_directory 0
        [{ sent := none, chain := [] }, { sent := none, chain := [] }]).1 = none) := by
  constructor
  · rw [(dequeue_directory_steal_order 0
      [{ sent := none, chain := [] }, { sent := none, chain := [['b']] }]).1]
    decide
  · rw [(dequeue_directory_steal_order 0
      [{ sent := none, chain := [] }, { sent := none, chain := [] }]).2.mpr (by decide)]

/-- C6: sequentially (one producer, one consumer, no interleaving) the
lock-free queue is a FIFO: enqueues append to the chain in order,
repeated dequeues return exactly the chain in order, a dequeue reports
empty iff the sentinel's `next` is null (empty chain), and otherwise the
head advances to `head->next` and the returned value is the one carried
by the node that becomes the new sentinel. -/
theorem lfqueue_fifo (l : List Path) (q : lfqueue Path) :
    (List.foldl _enqueue q l).chain = q.chain ++ l
    ∧ drainN q.chain.length q = q.chain
    ∧ ((_dequeue q).1 = none ↔ q.chain = [])
    ∧ (∀ v rest, q.chain = v :: rest →
        _dequeue q = (some v, { sent := some v, chain := rest })) := by
  refine ⟨foldl_enqueue_chain l q, ?_, ?_, ?_⟩
  · cases q with
    | mk s c => exact drainN_chain c s
  · cases hq : q.chain with
    | nil => simp [_dequeue, hq]
    | cons v rest => simp [_dequeue, hq]
  · intro v rest hq
    simp [_dequeue, hq]

/-- Witness for C6: enqueue "/a/" then "/b/" into a fresh queue and
drain: the values come back in enqueue order, and the first dequeue
leaves "/a/" as the new sentinel's value. -/
theorem lfqueue_fifo_witness :
    drainN 2 (List.foldl _enqueue (lfqueue_empty : lfqueue Path) [['a'], ['b']]) =
      [['a'], ['b']]
    ∧ _dequeue ({ sent := none, chain := [['a'], ['b']] } : lfqueue Path) =
        (some ['a'], { sent := some ['a'], chain := [['b']] }) := by
  constructor
  · have h := (lfqueue_fifo [['a'], ['b']] lfqueue_empty).1
    have h2 := (lfqueue_fifo [] (List.foldl _enqueue (lfqueue_empty : lfqueue Path)
      [['a'], ['b']])).2.1
    rw [h] at h2
    simpa using h2
  · exact (lfqueue_fifo [] _).2.2.2 ['a'] [['b']] rfl

/-- A concrete environment for the C2 counterexample: "/a" sits on a
proc filesystem, its inode 5 is watched on device 7 (which is also what
stat resolves), so the claimed match test would record it. -/
def env_c2 : FsEnv :=
  { readdir := fun _ => none
    statfs_ftype := fun p => if p = ['/', 'a'] then some PROC_SUPER_MAGIC else some 0
    stat_dev := fun _ => 7
    stat_ino := fun _ => 5 }

/-- The scan state in which the C2 counterexample entry is processed. -/
def st_c2 : scan_state :=
  { queues := [lfqueue_empty], scanned_dirs := 0, found_files := []
    visited := [], enq_trace := [] }

/-- C2 counterexample: the subdirectory entry "a" of "/" lies on a proc
mount and its (inode, device) pair (5, 7) is in the index, so
`add_filename` would emit a record for it — yet `parse_dirqueue_entry`'s
entry processing leaves the state completely unchanged: the `is_proc_dir`
test guards the match test as well, so no match is recorded.  This
refutes the claim that the match test is performed even for
subdirectories whose descent is skipped. -/
theorem subdir_match_test_skipped_counterexample :
    process_dirent env_c2 [(5, [7])] 0 ['/'] st_c2
        { d_ino := 5, d_type := .dir, d_name := ['a'] } = st_c2
    ∧ add_filename env_c2 [(5, [7])] [] 5 ['/'] ['a'] true ≠ [] := by
  constructor
  · decide
  · decide

/-- C2 amended: for a subdirectory entry, the dot-dir test and the
pseudo/virtual-filesystem test guard the whole body: a "." or ".." or
proc/fuse subdirectory is neither match-tested nor enqueued (the state
is untouched); any other subdirectory is first tested for a match
exactly like a file (with the directory flag set, so a hit is recorded
with a trailing separator) and then its child path is constructed and
enqueued onto the worker's own queue. -/
theorem process_dirent_subdir_amended
    (env : FsEnv) (iset : InodeSet) (idx : Nat) (path : Path)
    (st : scan_state) (e : linux_dirent64) (hdir : e.d_type = .dir) :
    ((is_dot_dir e.d_name = true ∨ is_proc_dir env path e.d_name = true) →
      process_dirent env iset idx path st e = st)
    ∧ (is_dot_dir e.d_name = false → is_proc_dir env path e.d_name = false →
      process_dirent env iset idx path st e =
        queue_directory idx
          { st with found_files :=
              add_filename env iset st.found_files e.d_ino path e.d_name true }
          (path ++ e.d_name ++ ['/'])) := by
  obtain ⟨ino, ty, nm⟩ := e
  cases hdir
  constructor
  · rintro (h | h) <;> simp [process_dirent, h]
  · intro h1 h2
    simp [process_dirent, h1, h2]

/-- Witness for C2's amended claim: the proc subdirectory "a" is left
untouched; the ordinary subdirectory "b" is match-tested (recorded with
the trailing separator) and enqueued. -/
theorem process_dirent_subdir_amended_witness :
    process_dirent env_c2 [(5, [7])] 0 ['/'] st_c2
        { d_ino := 5, d_type := .dir, d_name := ['a'] } = st_c2
    ∧ process_dirent env_c2 [(5, [7])] 0 ['/'] st_c2
        { d_ino := 5, d_type := .dir, d_name := ['b'] } =
      queue_directory 0
        { st_c2 with found_files :=
            add_filename env_c2 [(5, [7])] st_c2.found_files 5 ['/'] ['b'] true }
        (['/'] ++ ['b'] ++ ['/']) :=
  ⟨(process_dirent_subdir_amended env_c2 [(5, [7])] 0 ['/'] st_c2
      { d_ino := 5, d_type := .dir, d_name := ['a'] } rfl).1 (Or.inr (by decide)),
   (process_dirent_subdir_amended env_c2 [(5, [7])] 0 ['/'] st_c2
      { d_ino := 5, d_type := .dir, d_name := ['b'] } rfl).2 (by decide) (by decide)⟩

/-- C4: if folding the selected watcher-process records yields an empty
InodeDeviceIndex, the scan is skipped entirely: `find_files_in_inode_set`
returns zero scanned directories, an empty match list and an empty
visited trace without running any worker, and `thread_shared_data_t::init`
creates no worker queues.  The function returns normally (callers treat
the zero result as "nothing to do", not as a fatal error). -/
theorem empty_index_skips_scan
    (env : FsEnv) (numthreads : Nat) (inotify_proclist : List procinfo_t)
    (ignore_dirs : List Path) (sched : List Nat)
    (h : tsd_inode_set inotify_proclist = []) :
    find_files_in_inode_set env numthreads inotify_proclist ignore_dirs sched = (0, [], [])
    ∧ tsd_dirqueues numthreads (tsd_inode_set inotify_proclist) = [] := by
  constructor
  · simp [find_files_in_inode_set, h]
  · simp [tsd_dirqueues, h]

/-- Witness for C4: a process table holding watches but with no process
selected on the command line folds to an empty index, and the scan is
skipped. -/
theorem empty_index_skips_scan_witness :
    find_files_in_inode_set
        { readdir := fun _ => none, statfs_ftype := fun _ => some 0
          stat_dev := fun _ => 7, stat_ino := fun _ => 5 }
        4 [{ pid := 10, in_cmd_line := false, dev_map := [(7, [5])] }] [] [] = (0, [], [])
    ∧ tsd_dirqueues 4
        (tsd_inode_set [{ pid := 10, in_cmd_line := false, dev_map := [(7, [5])] }]) = [] :=
  empty_index_skips_scan _ 4 _ [] [] (by decide)

theorem filename_info_less_iff_aux (a b : filename_info_t) :
    filename_info_less a b = true ↔
      (a.dev < b.dev ∨ (a.dev = b.dev ∧ a.inode < b.inode)) := by
  by_cases h : a.dev = b.dev <;> simp [filename_info_less, h]

theorem lfless_neg_iff (a b : filename_info_t) :
    (!filename_info_less b a) = true ↔
      (a.dev < b.dev ∨ (a.dev = b.dev ∧ a.inode ≤ b.inode)) := by
  have h := filename_info_less_iff_aux b a
  cases hb : filename_info_less b a <;> simp [hb] at h ⊢ <;> omega

theorem sort_found_spec (l : List filename_info_t) :
    (sort_found l).Perm l ∧
      List.Pairwise (fun a b => a.dev < b.dev ∨ (a.dev = b.dev ∧ a.inode ≤ b.inode))
        (sort_found l) := by
  constructor
  · exact List.mergeSort_perm l _
  · have h := @List.sorted_mergeSort filename_info_t
      (fun a b => !filename_info_less b a)
      (fun a b c hab hbc => by
        rw [lfless_neg_iff] at hab hbc ⊢
        omega)
      (fun a b => by
        rw [Bool.or_eq_true, lfless_neg_iff, lfless_neg_iff]
        omega)
      l
    exact h.imp (fun hab => (lfless_neg_iff _ _).mp hab)

/-- C8: the final match list returned by `find_files_in_inode_set` is
`sort_found` of the merged worker results: a permutation of the merged
list that is sorted ascending by (device, inode) — pairwise, an earlier
record has a smaller device, or the same device and a no-larger inode —
and the comparator orders a before b exactly when a.dev < b.dev, or
a.dev = b.dev and a.inode < b.inode. -/
theorem merged_results_sorted (env : FsEnv) (numthreads : Nat)
    (inotify_proclist : List procinfo_t) (ignore_dirs : List Path) (sched : List Nat) :
    ∃ base,
      (find_files_in_inode_set env numthreads inotify_proclist ignore_dirs sched).2.1 =
        sort_found base
      ∧ (sort_found base).Perm base
      ∧ List.Pairwise (fun a b => a.dev < b.dev ∨ (a.dev = b.dev ∧ a.inode ≤ b.inode))
          (sort_found base)
      ∧ (∀ a b, filename_info_less a b = true ↔
          (a.dev < b.dev ∨ (a.dev = b.dev ∧ a.inode < b.inode))) := by
  by_cases h : (tsd_inode_set inotify_proclist).isEmpty
  · refine ⟨[], ?_, (sort_found_spec []).1, (sort_found_spec []).2,
      filename_info_less_iff_aux⟩
    simp [find_files_in_inode_set, h, sort_found]
  · refine ⟨(run_sched env (tsd_inode_set inotify_proclist) ignore_dirs (0 :: sched)
        (initial_state env (tsd_inode_set inotify_proclist) (max 1 numthreads))).found_files,
      ?_, (sort_found_spec _).1, (sort_found_spec _).2, filename_info_less_iff_aux⟩
    simp [find_files_in_inode_set, h]

end InotifyInfo
